import Mathlib

/-!
Shallow embedding of the request representation and caching layer of
`lm_eval/base.py` from the lm-evaluation-harness repository: the
content-addressing function `hash_args`, the caching executor returned by
`CachingLM.__getattr__` (called `CachingLM.execute` below, after the spec's
name for it), the request-kind registry `req_ret_lens`, the `Request` class
and the `RequestFactory`.
-/

/-- A primitive argument value as accepted by `hash_args`; the source asserts
`isinstance(arg, str) or isinstance(arg, int)`, so an argument is a Python
string or integer. -/
inductive PArg where
  | str (s : String)
  | int (n : Int)
deriving DecidableEq

/-- Python `str(arg)` on a primitive argument (identity on strings, decimal
representation of integers). -/
def argStr : PArg → String
  | PArg.str s => s
  | PArg.int n => toString n

/-- The serialization built by `hash_args` in the source: for each argument,
`dat += str(arg).encode()` followed by `dat += b"\x5c0"` (one NUL terminator
byte per value).  The source returns `hashlib.sha256(dat).hexdigest()`; the
cryptographic digest is modelled as the pre-hash byte string itself (sha256 is
treated as collision-free), so equality of modelled digests coincides with
equality of the pre-hash byte strings the source feeds to sha256. -/
def hash_args : List PArg → List Char
  | [] => []
  | a :: rest => (argStr a).data ++ '\x00' :: hash_args rest

/-- A request, as handed to the caching executor: the source iterates over
`req` inside `hash_args`, so at this layer a request is the tuple of primitive
arguments itself. -/
abbrev Req := List PArg

/-- A cache key.  The source uses the string `attr + under-score + hexdigest`;
since the hexdigest has a fixed width there, that concatenation is injective in
the pair, and the key is modelled as the pair of the operation name and the
modelled digest. -/
abbrev CacheKey := String × List Char

/-- The key `hsh = attr + under-score + hash_args(req)` computed twice in
`CachingLM.__getattr__`. -/
def cacheKey (attr : String) (req : Req) : CacheKey := (attr, hash_args req)

/-- The persistent key-value store (`SqliteDict`), modelled as an association
list from keys to stored values.  A stored value is an `Option α` because a
Python value can be `None`; `none` models Python `None`. -/
abbrev Store (α : Type) := List (CacheKey × Option α)

/-- Lookup, modelling both `hsh in self.dbdict` (present iff the result is
`some`) and `self.dbdict[hsh]`. -/
def storeGet {α : Type} : Store α → CacheKey → Option (Option α)
  | [], _ => none
  | (k, v) :: rest, k2 => if k = k2 then some v else storeGet rest k2

/-- Assignment `self.dbdict[hsh] = r`: overwrite semantics, last write wins. -/
def storeSet {α : Type} (s : Store α) (k : CacheKey) (v : Option α) : Store α :=
  (k, v) :: s.filter (fun p => decide (p.1 ≠ k))

/-- Iteration core of the loop `while res[resptr] is not None: resptr += 1`;
the first argument is an iteration budget making the recursion structural. -/
def skipSomeAux {α : Type} : Nat → List (Option α) → Nat → Nat
  | 0, _, p => p
  | fuel + 1, res, p =>
    if h : p < res.length then
      if (res.get ⟨p, h⟩).isSome then skipSomeAux fuel res (p + 1) else p
    else p

/-- The loop `while res[resptr] is not None: resptr += 1` in the source:
starting from index `p`, skip entries holding `some` and return the index of
the first `none` slot (or the length of the list if there is none).  The
budget `res.length - p` bounds the number of iterations, so the loop always
has enough fuel and the definition agrees with the unbounded loop. -/
def skipSome {α : Type} (res : List (Option α)) (p : Nat) : Nat :=
  skipSomeAux (res.length - p) res p

/-- The second loop of the executor: `for req, r in zip(remaining_reqs,
rem_res)`, advance `resptr` past non-`None` slots, write `res[resptr] = r`,
and cache `self.dbdict[hsh] = r`.  Note that the pointer is not advanced after
the assignment, exactly as in the source: the next iteration's `while` loop
starts at the slot that was just written. -/
def fillAndCache {α : Type} (attr : String) :
    List (Req × Option α) → List (Option α) → Nat → Store α → List (Option α) × Store α
  | [], res, _, s => (res, s)
  | (req, r) :: rest, res, ptr, s =>
    let p := skipSome res ptr
    fillAndCache attr rest (res.set p r) p (storeSet s (cacheKey attr req) r)

/-- The first loop of the executor: for each request compute its key; on a hit
read the stored value and `assert ob is not None` (a stored `none` raises, the
`Except.error` case); on a miss append a `none` placeholder to `res` and the
request to `remaining_reqs`. -/
def scanReqs {α : Type} (attr : String) (s : Store α) :
    List Req → Except Unit (List (Option α) × List Req)
  | [] => Except.ok ([], [])
  | req :: rest =>
    match storeGet s (cacheKey attr req) with
    | some (some v) =>
      match scanReqs attr s rest with
      | Except.error e => Except.error e
      | Except.ok (res, rem) => Except.ok (some v :: res, rem)
    | some none => Except.error ()
    | none =>
      match scanReqs attr s rest with
      | Except.error e => Except.error e
      | Except.ok (res, rem) => Except.ok (none :: res, req :: rem)

/-- How a call of the caching executor can fail: the `assert ob is not None`
on a cached value (an `AssertionError` in Python), or an exception raised by
the backend operation itself, propagated unchanged. -/
inductive ExecErr (ε : Type) where
  | storedNone
  | backend (e : ε)
deriving DecidableEq

deriving instance DecidableEq for Except

/-- The function returned by `CachingLM.__getattr__(attr)` (the spec's
`execute`).  The backend `b` models `getattr(self.lm, attr)` and may fail
(raise).  The result carries the returned list, the store after the call (the
input store when an exception propagates, since all writes happen after the
backend returned), and the trace of argument lists passed to the backend — the
source calls the backend exactly once per invocation, unconditionally, with
`remaining_reqs` (possibly empty). -/
def CachingLM.execute {α ε : Type} (b : List Req → Except ε (List (Option α)))
    (attr : String) (s : Store α) (reqs : List Req) :
    Except (ExecErr ε) (List (Option α)) × Store α × List (List Req) :=
  match scanReqs attr s reqs with
  | Except.error _ => (Except.error ExecErr.storedNone, s, [])
  | Except.ok (res, rem) =>
    match b rem with
    | Except.error e => (Except.error (ExecErr.backend e), s, [rem])
    | Except.ok remRes =>
      let out := fillAndCache attr (rem.zip remRes) res 0 s
      (Except.ok out.1, out.2, [rem])

/-- The requests of a batch whose cache key is absent from the store, in input
order (`remaining_reqs` in the source). -/
def missesOf {α : Type} (attr : String) (s : Store α) (reqs : List Req) : List Req :=
  reqs.filter (fun req => (storeGet s (cacheKey attr req)).isNone)

/-- The slot list after the scan phase: the stored value at each hit position,
`none` at each miss position. -/
def hitsOf {α : Type} (attr : String) (s : Store α) (reqs : List Req) : List (Option α) :=
  reqs.map (fun req => Option.join (storeGet s (cacheKey attr req)))

/-- Number of `none` entries of a slot list. -/
def countNones {α : Type} (l : List (Option α)) : Nat :=
  (l.filter Option.isNone).length

/-- The store invariant stated by the spec's data model: a stored value is
never the `None` sentinel. -/
def storeOk {α : Type} (s : Store α) : Prop :=
  ∀ p ∈ s, (p.2 : Option α).isSome = true

instance storeOkDecidable {α : Type} (s : Store α) : Decidable (storeOk s) :=
  inferInstanceAs (Decidable (∀ p ∈ s, (p.2 : Option α).isSome = true))

/-- Number of misses strictly before position `i` of a batch: the index into
the backend's result list from which a miss at position `i` is filled. -/
def missRank {α : Type} (attr : String) (s : Store α) (reqs : List Req) (i : Nat) : Nat :=
  (missesOf attr s (reqs.take i)).length

/-- Modelled from the spec's words (step 4 of the merge algorithm): walk the
output slots in order and fill each unresolved slot with the next unused
backend result.  Used to compare the source's pointer-based loop against the
spec's description. -/
def specMerge {α : Type} : List (Option α) → List (Option α) → List (Option α)
  | [], _ => []
  | none :: t, r :: rs => r :: specMerge t rs
  | none :: t, [] => none :: specMerge t []
  | some v :: t, rs => some v :: specMerge t rs

/-- An argument that is a string containing no NUL character (the domain on
which the NUL-terminated serialization is injective). -/
def nulFree : PArg → Bool
  | PArg.str s => decide ('\x00' ∉ s.data)
  | PArg.int _ => false

/-- The request-kind registry of the source: `req_ret_lens` maps each
registered kind to its number of result components.  The source registers
exactly one kind, `loglikelihood`, with 2 components. -/
def req_ret_lens : List (String × Nat) := [("loglikelihood", 2)]

/-- The `Request` class: fields `type`, `args`, `index` exactly as assigned in
`Request.__init__`, plus the CPython object identity `oid` (the value of
`id(self)`), which is what the class's default `==` and `hash()` use, since
`Request` defines neither `__eq__` nor `__hash__`. -/
structure PyRequest where
  type : String
  args : List PArg
  index : Option Nat
  oid : Nat
deriving DecidableEq

/-- CPython `==` on `Request` values: the class defines no `__eq__`, so
equality falls back to `object.__eq__`, which is object identity. -/
def pyRequestEq (r1 r2 : PyRequest) : Bool := decide (r1.oid = r2.oid)

/-- CPython `hash()` on a `Request`: no `__hash__` is defined, so it falls
back to `object.__hash__`, derived injectively from the object identity. -/
def pyRequestHash (r : PyRequest) : Nat := r.oid

/-- Field-wise comparison of two requests on the triple the spec claims
equality is defined by. -/
def requestFieldsEq (r1 r2 : PyRequest) : Bool :=
  decide (r1.type = r2.type ∧ r1.args = r2.args ∧ r1.index = r2.index)

/-- Failure of `Request.__init__`: the source raises `NotImplementedError`
when the kind is not a key of `req_ret_lens` (the spec's
`UnsupportedRequestKind`). -/
inductive ReqError where
  | unsupportedKind
deriving DecidableEq

/-- `Request.__init__(self, type, args, index=None)`: checks the registry
before assigning any field, so an unregistered kind fails with no partial
construction; the constructor touches neither the store nor the backend. -/
def mkRequest (oid : Nat) (type : String) (args : List PArg) (index : Option Nat) :
    Except ReqError PyRequest :=
  if (req_ret_lens.lookup type).isSome then
    Except.ok ⟨type, args, index, oid⟩
  else
    Except.error ReqError.unsupportedKind

/-- `RequestFactory.__getattr__(attr)` returns `fn(*args) = Request(attr,
args)`: the factory builds a request with `index = None` for any attribute
name, and `Request.__init__` then enforces the registry. -/
def requestFactory (oid : Nat) (attr : String) (args : List PArg) :
    Except ReqError PyRequest :=
  mkRequest oid attr args none

/-! Helper lemmas about the executor's building blocks. -/

theorem skipSomeAux_eq {α : Type} :
    ∀ (fuel : Nat) (res : List (Option α)) (p : Nat), res.length - p ≤ fuel →
      skipSomeAux fuel res p = p + ((res.drop p).takeWhile Option.isSome).length := by
  intro fuel
  induction fuel with
  | zero =>
    intro res p h
    have hd : res.drop p = [] := List.drop_eq_nil_of_le (by omega)
    simp [skipSomeAux, hd]
  | succ fuel ih =>
    intro res p h
    by_cases hp : p < res.length
    · have hd : res.drop p = res.get ⟨p, hp⟩ :: res.drop (p + 1) := by
        rw [List.drop_eq_getElem_cons hp]
        simp
      rw [skipSomeAux, dif_pos hp]
      by_cases hs : (res.get ⟨p, hp⟩).isSome = true
      · rw [if_pos hs, ih res (p + 1) (by omega), hd, List.takeWhile_cons_of_pos hs]
        simp only [List.length_cons]
        omega
      · rw [if_neg hs, hd, List.takeWhile_cons]
        rw [if_neg hs]
        simp
    · have hd : res.drop p = [] := List.drop_eq_nil_of_le (by omega)
      rw [skipSomeAux]
      simp [hp, hd]

theorem skipSome_eq {α : Type} (res : List (Option α)) (p : Nat) :
    skipSome res p = p + ((res.drop p).takeWhile Option.isSome).length :=
  skipSomeAux_eq (res.length - p) res p (Nat.le_refl _)

theorem storeGet_mem {α : Type} :
    ∀ (s : Store α) (k : CacheKey) (v : Option α), storeGet s k = some v → (k, v) ∈ s := by
  intro s
  induction s with
  | nil => intro k v h; simp [storeGet] at h
  | cons p rest ih =>
    intro k v h
    obtain ⟨k1, v1⟩ := p
    by_cases hk : k1 = k
    · subst hk
      simp [storeGet] at h
      subst h
      exact List.mem_cons_self _ _
    · simp [storeGet, hk] at h
      exact List.mem_cons_of_mem _ (ih k v h)

theorem storeGet_storeSet_self {α : Type} (s : Store α) (k : CacheKey) (v : Option α) :
    storeGet (storeSet s k v) k = some v := by
  simp [storeGet, storeSet]

theorem countNones_cons_some {α : Type} (v : α) (l : List (Option α)) :
    countNones (some v :: l) = countNones l := by
  simp [countNones]

theorem countNones_cons_none {α : Type} (l : List (Option α)) :
    countNones ((none : Option α) :: l) = countNones l + 1 := by
  simp [countNones, List.filter]

theorem countNones_append {α : Type} (l1 l2 : List (Option α)) :
    countNones (l1 ++ l2) = countNones l1 + countNones l2 := by
  simp [countNones, List.filter_append]

theorem countNones_eq_zero_of_all_some {α : Type} :
    ∀ (l : List (Option α)), (∀ x ∈ l, x.isSome = true) → countNones l = 0 := by
  intro l
  induction l with
  | nil => intro _; rfl
  | cons x t ih =>
    intro hall
    have hx : x.isSome = true := hall x (List.mem_cons_self _ _)
    obtain ⟨v, rfl⟩ := Option.isSome_iff_exists.mp hx
    rw [countNones_cons_some]
    exact ih (fun y hy => hall y (List.mem_cons_of_mem _ hy))

theorem scanReqs_ok {α : Type} (attr : String) (s : Store α) (hs : storeOk s) :
    ∀ reqs : List Req,
      scanReqs attr s reqs = Except.ok (hitsOf attr s reqs, missesOf attr s reqs) := by
  intro reqs
  induction reqs with
  | nil => rfl
  | cons req rest ih =>
    cases hg : storeGet s (cacheKey attr req) with
    | none =>
      rw [scanReqs, hg, ih]
      simp [hitsOf, missesOf, hg]
    | some v =>
      have hv : v.isSome = true := hs _ (storeGet_mem s _ v hg)
      obtain ⟨x, rfl⟩ := Option.isSome_iff_exists.mp hv
      rw [scanReqs, hg, ih]
      simp [hitsOf, missesOf, hg]

theorem countNones_hitsOf {α : Type} (attr : String) (s : Store α) (hs : storeOk s) :
    ∀ reqs : List Req,
      countNones (hitsOf attr s reqs) = (missesOf attr s reqs).length := by
  intro reqs
  induction reqs with
  | nil => rfl
  | cons req rest ih =>
    cases hg : storeGet s (cacheKey attr req) with
    | none =>
      have h1 : hitsOf attr s (req :: rest) = none :: hitsOf attr s rest := by
        simp [hitsOf, hg]
      have h2 : missesOf attr s (req :: rest) = req :: missesOf attr s rest := by
        simp [missesOf, hg]
      rw [h1, h2, countNones_cons_none, ih]
      simp
    | some v =>
      have hv : v.isSome = true := hs _ (storeGet_mem s _ v hg)
      obtain ⟨x, rfl⟩ := Option.isSome_iff_exists.mp hv
      have h1 : hitsOf attr s (req :: rest) = some x :: hitsOf attr s rest := by
        simp [hitsOf, hg]
      have h2 : missesOf attr s (req :: rest) = missesOf attr s rest := by
        simp [missesOf, hg]
      rw [h1, h2, countNones_cons_some, ih]

theorem specMerge_nil {α : Type} : ∀ l : List (Option α), specMerge l [] = l := by
  intro l
  induction l with
  | nil => rfl
  | cons x t ih =>
    cases x with
    | none => rw [specMerge, ih]
    | some v => rw [specMerge, ih]

theorem specMerge_length {α : Type} :
    ∀ (l rs : List (Option α)), (specMerge l rs).length = l.length := by
  intro l
  induction l with
  | nil => intro rs; rfl
  | cons x t ih =>
    intro rs
    cases x with
    | none =>
      cases rs with
      | nil => simp [specMerge, specMerge_nil]
      | cons r rs' => simp [specMerge, ih]
    | some v => simp [specMerge, ih]

theorem specMerge_some_prefix {α : Type} :
    ∀ (sm t : List (Option α)) (r : Option α) (rs : List (Option α)),
      (∀ x ∈ sm, x.isSome = true) →
      specMerge (sm ++ (none : Option α) :: t) (r :: rs) = sm ++ r :: specMerge t rs := by
  intro sm
  induction sm with
  | nil => intro t r rs _; rfl
  | cons x sm' ih =>
    intro t r rs hall
    have hx : x.isSome = true := hall x (List.mem_cons_self _ _)
    obtain ⟨v, rfl⟩ := Option.isSome_iff_exists.mp hx
    have := ih t r rs (fun y hy => hall y (List.mem_cons_of_mem _ hy))
    simp only [List.cons_append, specMerge]
    exact congrArg (List.cons (some v)) this

theorem nones_decomp {α : Type} :
    ∀ l : List (Option α), 0 < countNones l →
      ∃ sm t, l = sm ++ (none : Option α) :: t ∧ (∀ x ∈ sm, x.isSome = true) ∧
        countNones l = countNones t + 1 := by
  intro l
  induction l with
  | nil => intro h; simp [countNones] at h
  | cons x t ih =>
    intro h
    cases x with
    | none =>
      exact ⟨[], t, rfl, by simp, by rw [countNones_cons_none]⟩
    | some v =>
      rw [countNones_cons_some] at h
      obtain ⟨sm, t2, rfl, hall, hcount⟩ := ih h
      refine ⟨some v :: sm, t2, rfl, ?_, ?_⟩
      · intro y hy
        cases List.mem_cons.mp hy with
        | inl h1 => subst h1; rfl
        | inr h2 => exact hall y h2
      · rw [countNones_cons_some, hcount]

theorem takeWhile_all_append {α : Type} (p : α → Bool) :
    ∀ (l1 : List α) (a : α) (l2 : List α), (∀ x ∈ l1, p x = true) → p a = false →
      (l1 ++ a :: l2).takeWhile p = l1 := by
  intro l1
  induction l1 with
  | nil =>
    intro a l2 _ ha
    simp [List.takeWhile_cons, ha]
  | cons x t ih =>
    intro a l2 hall ha
    have hx : p x = true := hall x (List.mem_cons_self _ _)
    simp only [List.cons_append, List.takeWhile_cons_of_pos hx]
    rw [ih a l2 (fun y hy => hall y (List.mem_cons_of_mem _ hy)) ha]

theorem skipSome_append {α : Type} (pre sm t : List (Option α)) (ptr : Nat)
    (hpre : ∀ x ∈ pre, x.isSome = true) (hsm : ∀ x ∈ sm, x.isSome = true)
    (hptr : ptr ≤ pre.length) :
    skipSome (pre ++ sm ++ (none : Option α) :: t) ptr = pre.length + sm.length := by
  rw [skipSome_eq]
  have hdrop : (pre ++ sm ++ (none : Option α) :: t).drop ptr =
      (pre.drop ptr ++ sm) ++ (none : Option α) :: t := by
    rw [List.append_assoc, List.drop_append_eq_append_drop]
    have : ptr - pre.length = 0 := by omega
    rw [this, List.drop_zero, List.append_assoc]
  rw [hdrop]
  rw [takeWhile_all_append _ _ _ _ ?_ rfl]
  · rw [List.length_append, List.length_drop]
    omega
  · intro x hx
    cases List.mem_append.mp hx with
    | inl h1 => exact hpre x (List.mem_of_mem_drop h1)
    | inr h2 => exact hsm x h2

theorem set_at_append {α : Type} :
    ∀ (l1 : List α) (a : α) (l2 : List α) (v : α),
      (l1 ++ a :: l2).set l1.length v = l1 ++ v :: l2 := by
  intro l1
  induction l1 with
  | nil => intro a l2 v; rfl
  | cons x t ih =>
    intro a l2 v
    simp only [List.cons_append, List.length_cons, List.set_cons_succ]
    rw [ih]

theorem fillAndCache_snd {α : Type} (attr : String) :
    ∀ (pairs : List (Req × Option α)) (res : List (Option α)) (ptr : Nat) (s : Store α),
      (fillAndCache attr pairs res ptr s).2 =
        pairs.foldl (fun st pr => storeSet st (cacheKey attr pr.1) pr.2) s := by
  intro pairs
  induction pairs with
  | nil => intro res ptr s; rfl
  | cons pr rest ih =>
    intro res ptr s
    obtain ⟨req, r⟩ := pr
    rw [fillAndCache]
    rw [ih]
    rfl

theorem fillAndCache_fst_length {α : Type} (attr : String) :
    ∀ (pairs : List (Req × Option α)) (res : List (Option α)) (ptr : Nat) (s : Store α),
      (fillAndCache attr pairs res ptr s).1.length = res.length := by
  intro pairs
  induction pairs with
  | nil => intro res ptr s; rfl
  | cons pr rest ih =>
    intro res ptr s
    obtain ⟨req, r⟩ := pr
    rw [fillAndCache]
    rw [ih]
    exact List.length_set res _ r

theorem fillAndCache_fst {α : Type} (attr : String) :
    ∀ (pairs : List (Req × Option α)) (pre post : List (Option α)) (ptr : Nat) (s : Store α),
      (∀ x ∈ pre, x.isSome = true) → ptr ≤ pre.length →
      (∀ pr ∈ pairs, (pr.2 : Option α).isSome = true) →
      pairs.length ≤ countNones post →
      (fillAndCache attr pairs (pre ++ post) ptr s).1 =
        pre ++ specMerge post (pairs.map Prod.snd) := by
  intro pairs
  induction pairs with
  | nil =>
    intro pre post ptr s _ _ _ _
    rw [fillAndCache, List.map_nil, specMerge_nil]
  | cons pr rest ih =>
    intro pre post ptr s hpre hptr hall hlen
    obtain ⟨req, r⟩ := pr
    have hr : r.isSome = true := hall (req, r) (List.mem_cons_self _ _)
    have hrest : ∀ q ∈ rest, (q.2 : Option α).isSome = true :=
      fun q hq => hall q (List.mem_cons_of_mem _ hq)
    have hpos : 0 < countNones post := by
      have := hlen
      simp only [List.length_cons] at this
      omega
    obtain ⟨sm, t, rfl, hsm, hcount⟩ := nones_decomp post hpos
    have hskip : skipSome (pre ++ (sm ++ (none : Option α) :: t)) ptr =
        pre.length + sm.length := by
      rw [← List.append_assoc]
      exact skipSome_append pre sm t ptr hpre hsm hptr
    rw [fillAndCache]
    simp only [hskip]
    have hset : (pre ++ (sm ++ (none : Option α) :: t)).set (pre.length + sm.length) r =
        (pre ++ sm ++ [r]) ++ t := by
      rw [← List.append_assoc]
      have h1 : pre.length + sm.length = (pre ++ sm).length := by
        rw [List.length_append]
      rw [h1, set_at_append]
      simp [List.append_assoc]
    rw [hset]
    have hpre2 : ∀ x ∈ pre ++ sm ++ [r], x.isSome = true := by
      intro x hx
      rcases List.mem_append.mp hx with h1 | h2
      · rcases List.mem_append.mp h1 with h3 | h4
        · exact hpre x h3
        · exact hsm x h4
      · rw [List.mem_singleton.mp h2]
        exact hr
    have hptr2 : pre.length + sm.length ≤ (pre ++ sm ++ [r]).length := by
      simp [List.length_append]
    have hlen2 : rest.length ≤ countNones t := by
      rw [hcount] at hlen
      simp only [List.length_cons] at hlen
      omega
    rw [ih (pre ++ sm ++ [r]) t (pre.length + sm.length) _ hpre2 hptr2 hrest hlen2]
    rw [List.map_cons, specMerge_some_prefix sm t r (rest.map Prod.snd) hsm]
    simp [List.append_assoc]

theorem specMerge_get_of_some {α : Type} :
    ∀ (l : List (Option α)) (rs : List (Option α)) (i : Nat) (v : α),
      l.get? i = some (some v) → (specMerge l rs).get? i = some (some v) := by
  intro l
  induction l with
  | nil => intro rs i v h; simp at h
  | cons x t ih =>
    intro rs i v h
    cases x with
    | some w =>
      rw [specMerge]
      cases i with
      | zero => simpa using h
      | succ j =>
        rw [List.get?_cons_succ] at h ⊢
        exact ih rs j v h
    | none =>
      cases rs with
      | nil =>
        rw [specMerge_nil]
        exact h
      | cons r rs' =>
        rw [specMerge]
        cases i with
        | zero => simp at h
        | succ j =>
          rw [List.get?_cons_succ] at h ⊢
          exact ih rs' j v h

theorem specMerge_get_of_none {α : Type} :
    ∀ (l : List (Option α)) (rs : List (Option α)) (i : Nat),
      l.get? i = some none → countNones (l.take i) < rs.length →
      (specMerge l rs).get? i = rs.get? (countNones (l.take i)) := by
  intro l
  induction l with
  | nil => intro rs i h _; simp at h
  | cons x t ih =>
    intro rs i h hlt
    cases x with
    | some w =>
      rw [specMerge]
      cases i with
      | zero => simp at h
      | succ j =>
        rw [List.get?_cons_succ] at h ⊢
        rw [List.take_succ_cons, countNones_cons_some] at hlt ⊢
        exact ih rs j h hlt
    | none =>
      cases rs with
      | nil => simp at hlt
      | cons r rs' =>
        rw [specMerge]
        cases i with
        | zero => simp [countNones]
        | succ j =>
          rw [List.get?_cons_succ] at h ⊢
          rw [List.take_succ_cons, countNones_cons_none] at hlt ⊢
          rw [List.get?_cons_succ]
          refine ih rs' j h ?_
          simp only [List.length_cons] at hlt
          omega

theorem hitsOf_take {α : Type} (attr : String) (s : Store α) (reqs : List Req) (i : Nat) :
    (hitsOf attr s reqs).take i = hitsOf attr s (reqs.take i) := by
  rw [hitsOf, hitsOf]
  exact (List.map_take _ _ _).symm

theorem missesOf_split {α : Type} (attr : String) (s : Store α) (reqs : List Req) (i : Nat) :
    missesOf attr s reqs =
      missesOf attr s (reqs.take i) ++ missesOf attr s (reqs.drop i) := by
  rw [missesOf, missesOf, missesOf, ← List.filter_append, List.take_append_drop]

/-- C1: for every ordered batch of requests and every initial store satisfying
the data-model invariant (no stored `None`), when the backend returns one
non-`None` result per miss, `execute` returns exactly one result per input
request in input order: hit positions hold the stored value, and miss
positions are filled with the backend's results strictly in miss-submission
order, independent of the hit/miss interleaving. -/
theorem execute_order_preserving {α ε : Type}
    (b : List Req → Except ε (List (Option α))) (attr : String) (s : Store α)
    (reqs : List Req) (rs : List (Option α))
    (hs : storeOk s)
    (hb : b (missesOf attr s reqs) = Except.ok rs)
    (hlen : rs.length = (missesOf attr s reqs).length)
    (hr : ∀ r ∈ rs, (r : Option α).isSome = true) :
    ∃ (results : List (Option α)) (s2 : Store α),
      CachingLM.execute b attr s reqs = (Except.ok results, s2, [missesOf attr s reqs]) ∧
      results.length = reqs.length ∧
      (∀ (i : Nat) (hi : i < reqs.length) (v : Option α),
        storeGet s (cacheKey attr (reqs.get ⟨i, hi⟩)) = some v →
        results.get? i = some v) ∧
      (∀ (i : Nat) (hi : i < reqs.length),
        storeGet s (cacheKey attr (reqs.get ⟨i, hi⟩)) = none →
        results.get? i = rs.get? (missRank attr s reqs i)) := by
  have hscan := scanReqs_ok attr s hs reqs
  have hpairs_snd : ((missesOf attr s reqs).zip rs).map Prod.snd = rs :=
    List.map_snd_zip _ rs (Nat.le_of_eq hlen)
  have hall : ∀ pr ∈ (missesOf attr s reqs).zip rs, (pr.2 : Option α).isSome = true := by
    intro pr hpr
    obtain ⟨req, r⟩ := pr
    exact hr r (List.of_mem_zip hpr).2
  have hcn : countNones (hitsOf attr s reqs) = (missesOf attr s reqs).length :=
    countNones_hitsOf attr s hs reqs
  have hplen : ((missesOf attr s reqs).zip rs).length ≤ countNones (hitsOf attr s reqs) := by
    rw [List.length_zip, hcn]
    omega
  have hfill := fillAndCache_fst attr ((missesOf attr s reqs).zip rs) []
    (hitsOf attr s reqs) 0 s (by simp) (by simp) hall hplen
  rw [List.nil_append, List.nil_append, hpairs_snd] at hfill
  have hexec : CachingLM.execute b attr s reqs =
      (Except.ok (specMerge (hitsOf attr s reqs) rs),
       (fillAndCache attr ((missesOf attr s reqs).zip rs) (hitsOf attr s reqs) 0 s).2,
       [missesOf attr s reqs]) := by
    unfold CachingLM.execute
    rw [hscan]
    show (match b (missesOf attr s reqs) with
      | Except.error e => (Except.error (ExecErr.backend e), s, [missesOf attr s reqs])
      | Except.ok remRes =>
        let out := fillAndCache attr ((missesOf attr s reqs).zip remRes) (hitsOf attr s reqs) 0 s
        (Except.ok out.1, out.2, [missesOf attr s reqs])) = _
    rw [hb, ← hfill]
  refine ⟨specMerge (hitsOf attr s reqs) rs,
    (fillAndCache attr ((missesOf attr s reqs).zip rs) (hitsOf attr s reqs) 0 s).2,
    hexec, ?_, ?_, ?_⟩
  · rw [specMerge_length]
    simp [hitsOf]
  · intro i hi v hv
    have hvsome : v.isSome = true := hs _ (storeGet_mem s _ v hv)
    obtain ⟨x, rfl⟩ := Option.isSome_iff_exists.mp hvsome
    rw [List.get_eq_getElem] at hv
    have hhit : (hitsOf attr s reqs).get? i = some (some x) := by
      rw [hitsOf, List.get?_map, List.get?_eq_get hi]
      simp [hv]
    exact specMerge_get_of_some (hitsOf attr s reqs) rs i x hhit
  · intro i hi hv
    rw [List.get_eq_getElem] at hv
    have hslot : (hitsOf attr s reqs).get? i = some none := by
      rw [hitsOf, List.get?_map, List.get?_eq_get hi]
      simp [hv]
    have htake : countNones ((hitsOf attr s reqs).take i) = missRank attr s reqs i := by
      rw [missRank, hitsOf_take, countNones_hitsOf attr s hs (reqs.take i)]
    have hbound : countNones ((hitsOf attr s reqs).take i) < rs.length := by
      rw [htake, hlen, missRank]
      have hsplit := congrArg List.length (missesOf_split attr s reqs i)
      rw [List.length_append] at hsplit
      have hdrop : 0 < (missesOf attr s (reqs.drop i)).length := by
        have hdc : reqs.drop i = reqs[i] :: reqs.drop (i + 1) :=
          List.drop_eq_getElem_cons hi
        rw [hdc, missesOf, List.filter_cons]
        rw [hv]
        simp
      omega
    have := specMerge_get_of_none (hitsOf attr s reqs) rs i hslot hbound
    rw [this, htake]

theorem nul_split :
    ∀ (l1 l2 r1 r2 : List Char), '\x00' ∉ l1 → '\x00' ∉ l2 →
      l1 ++ '\x00' :: r1 = l2 ++ '\x00' :: r2 → l1 = l2 ∧ r1 = r2 := by
  intro l1
  induction l1 with
  | nil =>
    intro l2 r1 r2 _ h2 heq
    cases l2 with
    | nil =>
      rw [List.nil_append, List.nil_append] at heq
      exact ⟨rfl, (List.cons.injEq _ _ _ _ ▸ heq).2⟩
    | cons c t =>
      rw [List.nil_append, List.cons_append] at heq
      injection heq with hc _
      cases hc
      exact absurd (List.mem_cons_self _ _) h2
  | cons c1 t1 ih =>
    intro l2 r1 r2 h1 h2 heq
    cases l2 with
    | nil =>
      rw [List.nil_append, List.cons_append] at heq
      injection heq with hc _
      cases hc
      exact absurd (List.mem_cons_self _ _) h1
    | cons c2 t2 =>
      rw [List.cons_append, List.cons_append] at heq
      injection heq with hc ht
      have h1' : '\x00' ∉ t1 := fun hm => h1 (List.mem_cons_of_mem _ hm)
      have h2' : '\x00' ∉ t2 := fun hm => h2 (List.mem_cons_of_mem _ hm)
      obtain ⟨hl, hr⟩ := ih t2 r1 r2 h1' h2' ht
      exact ⟨by rw [hc, hl], hr⟩

theorem hash_args_inj_aux :
    ∀ (xs ys : List PArg), (∀ a ∈ xs, nulFree a = true) → (∀ a ∈ ys, nulFree a = true) →
      hash_args xs = hash_args ys → xs = ys := by
  intro xs
  induction xs with
  | nil =>
    intro ys _ _ h
    cases ys with
    | nil => rfl
    | cons a t =>
      rw [hash_args, hash_args] at h
      simp at h
  | cons a t ih =>
    intro ys hx hy h
    cases ys with
    | nil =>
      rw [hash_args, hash_args] at h
      simp at h
    | cons a2 t2 =>
      rw [hash_args, hash_args] at h
      obtain ⟨s1, rfl⟩ : ∃ s1, a = PArg.str s1 := by
        cases ha : a with
        | str s => exact ⟨s, rfl⟩
        | int n =>
          have := hx a (List.mem_cons_self _ _)
          rw [ha] at this
          simp [nulFree] at this
      obtain ⟨s2, rfl⟩ : ∃ s2, a2 = PArg.str s2 := by
        cases ha : a2 with
        | str s => exact ⟨s, rfl⟩
        | int n =>
          have := hy a2 (List.mem_cons_self _ _)
          rw [ha] at this
          simp [nulFree] at this
      have hn1 : '\x00' ∉ s1.data := by
        have := hx _ (List.mem_cons_self _ _)
        exact of_decide_eq_true this
      have hn2 : '\x00' ∉ s2.data := by
        have := hy _ (List.mem_cons_self _ _)
        exact of_decide_eq_true this
      rw [argStr, argStr] at h
      obtain ⟨hd, htl⟩ := nul_split s1.data s2.data _ _ hn1 hn2 h
      have hs12 : s1 = s2 := String.ext hd
      have ht12 : t = t2 :=
        ih t2 (fun q hq => hx q (List.mem_cons_of_mem _ hq))
          (fun q hq => hy q (List.mem_cons_of_mem _ hq)) htl
      rw [hs12, ht12]

/-- C5 (counterexample): the claim that any two distinct argument tuples
produce distinct pre-hash byte strings is false: the Python integer `5` and
the string `"5"` serialize identically (`str` erases the type), and a string
containing a NUL byte collides with the tuple that splits at that byte, since
the terminator is a byte the values themselves may contain. -/
theorem hash_args_serialization_collisions :
    (hash_args [PArg.int 5] = hash_args [PArg.str "5"] ∧
      [PArg.int 5] ≠ [PArg.str "5"]) ∧
    (hash_args [PArg.str "a\x00"] = hash_args [PArg.str "a", PArg.str ""] ∧
      [PArg.str "a\x00"] ≠ [PArg.str "a", PArg.str ""]) := by
  exact ⟨⟨by decide, by decide⟩, ⟨by decide, by decide⟩⟩

/-- C5 (amended): `hash_args` is deterministic (it is a pure function of the
argument tuple), and on tuples of NUL-free string arguments the NUL-terminated
serialization is unambiguous: two such tuples have equal pre-hash byte strings
exactly when they are equal.  In particular the tuple of strings 10,5 hashes
differently from 1,05 (see the witness).  Injectivity does not extend to
integer arguments or to strings containing NUL bytes, by the counterexample. -/
theorem hash_args_injective_on_nul_free (xs ys : List PArg)
    (hx : ∀ a ∈ xs, nulFree a = true) (hy : ∀ a ∈ ys, nulFree a = true) :
    hash_args xs = hash_args ys ↔ xs = ys :=
  ⟨hash_args_inj_aux xs ys hx hy, fun h => by rw [h]⟩

theorem hash_args_injective_on_nul_free_witness :
    hash_args [PArg.str "10", PArg.str "5"] = hash_args [PArg.str "1", PArg.str "05"] ↔
      [PArg.str "10", PArg.str "5"] = [PArg.str "1", PArg.str "05"] :=
  hash_args_injective_on_nul_free _ _ (by decide) (by decide)

/-- C6: within one `execute` batch against an initially empty store, identical
requests are not deduplicated — every request of the batch is a miss (first
conjunct, for any batch), and in the concrete scenario the batch a,b,a is
passed to the backend as three misses (the invocation trace); each position is
filled from its own backend result (10, 20, 30 land at positions 0, 1, 2), and
the final store holds exactly one key per distinct argument tuple — two keys,
with the duplicate key's last write (30) winning over the first (10). -/
theorem execute_no_dedup_within_batch :
    (∀ (attr : String) (reqs : List Req), missesOf attr ([] : Store Nat) reqs = reqs) ∧
    CachingLM.execute
        ((fun _ => Except.ok [some 10, some 20, some 30]) :
          List Req → Except Unit (List (Option Nat)))
        "loglik" [] [[PArg.str "a"], [PArg.str "b"], [PArg.str "a"]] =
      (Except.ok [some 10, some 20, some 30],
       [(cacheKey "loglik" [PArg.str "a"], some 30),
        (cacheKey "loglik" [PArg.str "b"], some 20)],
       [[[PArg.str "a"], [PArg.str "b"], [PArg.str "a"]]]) ∧
    (CachingLM.execute
        ((fun _ => Except.ok [some 10, some 20, some 30]) :
          List Req → Except Unit (List (Option Nat)))
        "loglik" [] [[PArg.str "a"], [PArg.str "b"], [PArg.str "a"]]).2.1.length = 2 := by
  refine ⟨?_, rfl, rfl⟩
  intro attr reqs
  simp [missesOf, storeGet]

/-- C10: the reconciliation loop misassigns results when the backend returns
`None` for a miss that is not the last one.  First conjunct: store empty,
batch a,b, backend returns None then 7 — the pointer does not advance past
slot 0 after writing `None` there, so the next result 7 overwrites slot 0
(which belongs to miss a), slot 1 stays `None`, and `None` is cached under
a's key while 7 is cached under b's key.  Second conjunct: reading a's key
back from that store trips `assert ob is not None` and the call fails. -/
theorem reconciliation_misassigns_on_none_result :
    CachingLM.execute
        ((fun _ => Except.ok [none, some 7]) : List Req → Except Unit (List (Option Nat)))
        "loglikelihood" [] [[PArg.str "a"], [PArg.str "b"]] =
      (Except.ok [some 7, none],
       [(cacheKey "loglikelihood" [PArg.str "b"], some 7),
        (cacheKey "loglikelihood" [PArg.str "a"], none)],
       [[[PArg.str "a"], [PArg.str "b"]]]) ∧
    CachingLM.execute
        ((fun _ => Except.ok []) : List Req → Except Unit (List (Option Nat)))
        "loglikelihood"
        [(cacheKey "loglikelihood" [PArg.str "b"], some 7),
         (cacheKey "loglikelihood" [PArg.str "a"], none)]
        [[PArg.str "a"]] =
      (Except.error ExecErr.storedNone,
       [(cacheKey "loglikelihood" [PArg.str "b"], some 7),
        (cacheKey "loglikelihood" [PArg.str "a"], none)], []) :=
  ⟨rfl, rfl⟩

/-- C7 (counterexample): two `Request` objects with identical `type`, `args`
and `index` but distinct object identities do not compare equal and do not
hash equal: the class defines neither `__eq__` nor `__hash__`, so CPython
falls back to object identity for both. -/
theorem request_eq_not_field_based :
    requestFieldsEq ⟨"loglikelihood", [PArg.str "x"], none, 0⟩
        ⟨"loglikelihood", [PArg.str "x"], none, 1⟩ = true ∧
    pyRequestEq ⟨"loglikelihood", [PArg.str "x"], none, 0⟩
        ⟨"loglikelihood", [PArg.str "x"], none, 1⟩ = false ∧
    pyRequestHash ⟨"loglikelihood", [PArg.str "x"], none, 0⟩ ≠
      pyRequestHash ⟨"loglikelihood", [PArg.str "x"], none, 1⟩ :=
  ⟨by decide, by decide, by decide⟩

/-- C7 (amended): equality and hashing of `Request` are object identity, not
field equality: identical identity gives equality and equal hashes, but
field-identical requests need not be equal (see the counterexample).  The
caching layer is nevertheless insensitive to request identity: cache keys are
computed from the argument tuple alone, so field-identical requests produce
the same cache key and are interchangeable for caching purposes. -/
theorem request_eq_identity_and_key_field_based :
    (∀ r1 r2 : PyRequest, r1.oid = r2.oid →
      pyRequestEq r1 r2 = true ∧ pyRequestHash r1 = pyRequestHash r2) ∧
    (∀ (attr : String) (r1 r2 : PyRequest), requestFieldsEq r1 r2 = true →
      cacheKey attr r1.args = cacheKey attr r2.args) := by
  constructor
  · intro r1 r2 h
    exact ⟨by simp [pyRequestEq, h], by simp [pyRequestHash, h]⟩
  · intro attr r1 r2 h
    have h2 := of_decide_eq_true h
    rw [h2.2.1]

theorem request_eq_identity_and_key_field_based_witness :
    (pyRequestEq ⟨"loglikelihood", [], none, 3⟩ ⟨"loglikelihood", [], none, 3⟩ = true ∧
      pyRequestHash ⟨"loglikelihood", [], none, 3⟩ =
        pyRequestHash ⟨"loglikelihood", [], none, 3⟩) ∧
    cacheKey "loglikelihood" (PyRequest.args ⟨"loglikelihood", [PArg.str "q"], none, 0⟩) =
      cacheKey "loglikelihood" (PyRequest.args ⟨"loglikelihood", [PArg.str "q"], none, 1⟩) :=
  ⟨request_eq_identity_and_key_field_based.1 _ _ rfl,
   request_eq_identity_and_key_field_based.2 "loglikelihood" _ _ (by decide)⟩

/-- C8: `RequestFactory.<operation>(*arguments)` constructs the request with
`kind = operation`, `arguments = arguments` and `index = None` for every
registered kind, and an unregistered kind fails immediately at construction
with the unsupported-kind error (the source's `NotImplementedError`): the
`Except` result shows there is no partial construction, and the constructor
takes neither the store nor the backend as input, so neither is contacted. -/
theorem requestFactory_contract (oid : Nat) (attr : String) (args : List PArg) :
    ((req_ret_lens.lookup attr).isSome = true →
      requestFactory oid attr args = Except.ok ⟨attr, args, none, oid⟩) ∧
    (req_ret_lens.lookup attr = none →
      requestFactory oid attr args = Except.error ReqError.unsupportedKind) := by
  constructor
  · intro h
    rw [requestFactory, mkRequest, if_pos h]
  · intro h
    rw [requestFactory, mkRequest, if_neg]
    simp [h]

theorem requestFactory_contract_witness :
    requestFactory 0 "loglikelihood" [PArg.str "ctx", PArg.str "cont"] =
      Except.ok ⟨"loglikelihood", [PArg.str "ctx", PArg.str "cont"], none, 0⟩ ∧
    requestFactory 0 "greedy_until" [PArg.str "ctx", PArg.str "cont"] =
      Except.error ReqError.unsupportedKind :=
  ⟨(requestFactory_contract 0 "loglikelihood" _).1 (by decide),
   (requestFactory_contract 0 "greedy_until" _).2 (by decide)⟩

/-- C9 (counterexample): the registry `req_ret_lens` has no entry for the
greedy-generation-until-stop kind, so constructing a greedy-generation request
through the factory fails with the unsupported-kind error instead of
succeeding as the claim states. -/
theorem greedy_until_unregistered :
    req_ret_lens.lookup "greedy_until" = none ∧
    requestFactory 0 "greedy_until" [PArg.str "ctx", PArg.str "stop"] =
      Except.error ReqError.unsupportedKind :=
  ⟨by decide, rfl⟩

/-- C9 (amended): the fixed registry contains exactly one kind,
`loglikelihood` with 2 result components; log-likelihood requests construct
fine, but greedy-generation-until-stop is not registered — even though the
backend interface declares a `greedy_until` operation — so the factory fails
with the unsupported-kind error for it. -/
theorem registry_contains_only_loglikelihood (oid : Nat) (args : List PArg) :
    req_ret_lens = [("loglikelihood", 2)] ∧
    requestFactory oid "loglikelihood" args = Except.ok ⟨"loglikelihood", args, none, oid⟩ ∧
    requestFactory oid "greedy_until" args = Except.error ReqError.unsupportedKind :=
  ⟨rfl, rfl, rfl⟩

/-- C2 (counterexample): with two misses and a backend returning a single
result, `execute` does not fail with a count-mismatch error and does not
refrain from writing: `zip` silently truncates, the call returns successfully
with the second miss slot still the `None` placeholder, and the first miss's
key is written to the store. -/
theorem execute_count_mismatch_not_fatal :
    CachingLM.execute
        ((fun _ => Except.ok [some 1]) : List Req → Except Unit (List (Option Nat)))
        "loglikelihood" [] [[PArg.str "a"], [PArg.str "b"]] =
      (Except.ok [some 1, none],
       [(cacheKey "loglikelihood" [PArg.str "a"], some 1)],
       [[[PArg.str "a"], [PArg.str "b"]]]) ∧
    storeGet
        (CachingLM.execute
          ((fun _ => Except.ok [some 1]) : List Req → Except Unit (List (Option Nat)))
          "loglikelihood" [] [[PArg.str "a"], [PArg.str "b"]]).2.1
        (cacheKey "loglikelihood" [PArg.str "a"]) = some (some 1) :=
  ⟨rfl, rfl⟩

/-- C2 (amended): the executor performs no result-count check.  Whatever list
the backend returns for the misses, `execute` succeeds, returns one slot per
input request, and writes to the store exactly the pairs of `zip(misses,
results)` — the first `min(misses, results)` misses; surplus backend results
are ignored and unpaired miss slots keep their `None` placeholder. -/
theorem execute_zip_truncates {α ε : Type}
    (b : List Req → Except ε (List (Option α))) (attr : String) (s : Store α)
    (reqs : List Req) (rs : List (Option α))
    (hs : storeOk s)
    (hb : b (missesOf attr s reqs) = Except.ok rs) :
    ∃ results : List (Option α),
      CachingLM.execute b attr s reqs =
        (Except.ok results,
         ((missesOf attr s reqs).zip rs).foldl
           (fun st pr => storeSet st (cacheKey attr pr.1) pr.2) s,
         [missesOf attr s reqs]) ∧
      results.length = reqs.length := by
  have hscan := scanReqs_ok attr s hs reqs
  refine ⟨(fillAndCache attr ((missesOf attr s reqs).zip rs) (hitsOf attr s reqs) 0 s).1,
    ?_, ?_⟩
  · unfold CachingLM.execute
    rw [hscan]
    show (match b (missesOf attr s reqs) with
      | Except.error e => (Except.error (ExecErr.backend e), s, [missesOf attr s reqs])
      | Except.ok remRes =>
        let out := fillAndCache attr ((missesOf attr s reqs).zip remRes) (hitsOf attr s reqs) 0 s
        (Except.ok out.1, out.2, [missesOf attr s reqs])) = _
    rw [hb]
    show (Except.ok (fillAndCache attr ((missesOf attr s reqs).zip rs) (hitsOf attr s reqs) 0 s).1,
      (fillAndCache attr ((missesOf attr s reqs).zip rs) (hitsOf attr s reqs) 0 s).2,
      [missesOf attr s reqs]) = _
    rw [fillAndCache_snd]
  · rw [fillAndCache_fst_length]
    simp [hitsOf]

theorem execute_zip_truncates_witness :
    ∃ results : List (Option Nat),
      CachingLM.execute
          ((fun _ => Except.ok [some 1]) : List Req → Except Unit (List (Option Nat)))
          "loglikelihood" [] [[PArg.str "a"], [PArg.str "b"]] =
        (Except.ok results,
         ((missesOf "loglikelihood" ([] : Store Nat) [[PArg.str "a"], [PArg.str "b"]]).zip
            [some 1]).foldl
           (fun st pr => storeSet st (cacheKey "loglikelihood" pr.1) pr.2)
           ([] : Store Nat),
         [missesOf "loglikelihood" ([] : Store Nat) [[PArg.str "a"], [PArg.str "b"]]]) ∧
      results.length = [[PArg.str "a"], [PArg.str "b"]].length :=
  execute_zip_truncates _ "loglikelihood" [] [[PArg.str "a"], [PArg.str "b"]] [some 1]
    (by decide) rfl

/-- C3 (counterexample): the backend is invoked even when the misses list is
empty.  First call on an empty store: one invocation, with the one-request
misses list.  Second call with the same single request against the store the
first call produced: the result is served from the store, but the invocation
trace of the second call is `[[]]` — the backend's operation is called once
more, with the empty list — not the zero invocations the claim states. -/
theorem execute_second_call_invokes_backend :
    CachingLM.execute
        ((fun rem => Except.ok (rem.map (fun _ => (some 0 : Option Nat)))) :
          List Req → Except Unit (List (Option Nat)))
        "loglikelihood" [] [[PArg.str "a"]] =
      (Except.ok [some 0],
       [(cacheKey "loglikelihood" [PArg.str "a"], some 0)],
       [[[PArg.str "a"]]]) ∧
    (CachingLM.execute
        ((fun rem => Except.ok (rem.map (fun _ => (some 0 : Option Nat)))) :
          List Req → Except Unit (List (Option Nat)))
        "loglikelihood"
        [(cacheKey "loglikelihood" [PArg.str "a"], some 0)] [[PArg.str "a"]]).2.2 = [[]] :=
  ⟨rfl, rfl⟩

/-- C3 (amended): the backend operation is invoked exactly once per `execute`
call, unconditionally, with the (possibly empty) misses list: for a single
request absent from the store, the first call passes the one-request misses
list, computes and caches its result; the second identical call finds the key
in the store, serves the result from it, and still invokes the backend once —
with the empty misses list, so no per-request computation is requested. -/
theorem execute_backend_called_once_per_call {α ε : Type}
    (b : List Req → Except ε (List (Option α))) (attr : String) (s : Store α)
    (req : Req) (v : α) (rs0 : List (Option α))
    (hmiss : storeGet s (cacheKey attr req) = none)
    (hb1 : b [req] = Except.ok [some v])
    (hb0 : b [] = Except.ok rs0) :
    CachingLM.execute b attr s [req] =
      (Except.ok [some v], storeSet s (cacheKey attr req) (some v), [[req]]) ∧
    CachingLM.execute b attr (storeSet s (cacheKey attr req) (some v)) [req] =
      (Except.ok [some v], storeSet s (cacheKey attr req) (some v), [[]]) := by
  constructor
  · have hscan1 : scanReqs attr s [req] = Except.ok ([none], [req]) := by
      rw [scanReqs, hmiss]
      rfl
    unfold CachingLM.execute
    rw [hscan1]
    show (match b [req] with
      | Except.error e => (Except.error (ExecErr.backend e), s, [[req]])
      | Except.ok remRes =>
        let out := fillAndCache attr ([req].zip remRes) [none] 0 s
        (Except.ok out.1, out.2, [[req]])) = _
    rw [hb1]
    rfl
  · have hscan2 : scanReqs attr (storeSet s (cacheKey attr req) (some v)) [req] =
        Except.ok ([some v], []) := by
      rw [scanReqs, storeGet_storeSet_self]
      rfl
    unfold CachingLM.execute
    rw [hscan2]
    show (match b [] with
      | Except.error e =>
        (Except.error (ExecErr.backend e), storeSet s (cacheKey attr req) (some v), [[]])
      | Except.ok remRes =>
        let out := fillAndCache attr (List.zip [] remRes) [some v] 0
          (storeSet s (cacheKey attr req) (some v))
        (Except.ok out.1, out.2, [[]])) = _
    rw [hb0]
    rfl

theorem execute_backend_called_once_per_call_witness :
    CachingLM.execute
        ((fun rem => Except.ok (rem.map (fun _ => (some 5 : Option Nat)))) :
          List Req → Except Unit (List (Option Nat)))
        "loglikelihood" [] [[PArg.str "a"]] =
      (Except.ok [some 5],
       storeSet [] (cacheKey "loglikelihood" [PArg.str "a"]) (some 5), [[[PArg.str "a"]]]) ∧
    CachingLM.execute
        ((fun rem => Except.ok (rem.map (fun _ => (some 5 : Option Nat)))) :
          List Req → Except Unit (List (Option Nat)))
        "loglikelihood"
        (storeSet [] (cacheKey "loglikelihood" [PArg.str "a"]) (some 5)) [[PArg.str "a"]] =
      (Except.ok [some 5],
       storeSet [] (cacheKey "loglikelihood" [PArg.str "a"]) (some 5), [[]]) :=
  execute_backend_called_once_per_call _ "loglikelihood" [] [PArg.str "a"] 5 [] rfl rfl rfl

/-- C4: if the backend's operation raises during `execute`, the whole batch
fails atomically with respect to the store: the error propagates (tagged as a
backend failure), the store component of the result is the input store
unchanged, and in particular every key derived from the batch's misses maps
to exactly what it mapped to before the call — nothing was written, because
every store write in the source happens after the backend call returned. -/
theorem execute_backend_error_leaves_store {α ε : Type}
    (b : List Req → Except ε (List (Option α))) (attr : String) (s : Store α)
    (reqs : List Req) (e : ε)
    (hs : storeOk s)
    (hb : b (missesOf attr s reqs) = Except.error e) :
    CachingLM.execute b attr s reqs =
      (Except.error (ExecErr.backend e), s, [missesOf attr s reqs]) ∧
    ∀ req : Req,
      storeGet (CachingLM.execute b attr s reqs).2.1 (cacheKey attr req) =
        storeGet s (cacheKey attr req) := by
  have hscan := scanReqs_ok attr s hs reqs
  have h1 : CachingLM.execute b attr s reqs =
      (Except.error (ExecErr.backend e), s, [missesOf attr s reqs]) := by
    unfold CachingLM.execute
    rw [hscan]
    show (match b (missesOf attr s reqs) with
      | Except.error e => (Except.error (ExecErr.backend e), s, [missesOf attr s reqs])
      | Except.ok remRes =>
        let out := fillAndCache attr ((missesOf attr s reqs).zip remRes) (hitsOf attr s reqs) 0 s
        (Except.ok out.1, out.2, [missesOf attr s reqs])) = _
    rw [hb]
  refine ⟨h1, fun req => ?_⟩
  rw [h1]

theorem execute_backend_error_leaves_store_witness :
    CachingLM.execute
        ((fun _ => Except.error ()) : List Req → Except Unit (List (Option Nat)))
        "loglikelihood" [] [[PArg.str "a"]] =
      (Except.error (ExecErr.backend ()), [],
       [missesOf "loglikelihood" ([] : Store Nat) [[PArg.str "a"]]]) ∧
    ∀ req : Req,
      storeGet
        (CachingLM.execute
          ((fun _ => Except.error ()) : List Req → Except Unit (List (Option Nat)))
          "loglikelihood" [] [[PArg.str "a"]]).2.1
        (cacheKey "loglikelihood" req) =
      storeGet ([] : Store Nat) (cacheKey "loglikelihood" req) :=
  execute_backend_error_leaves_store _ "loglikelihood" [] [[PArg.str "a"]] ()
    (by decide) rfl

theorem execute_order_preserving_witness :
    ∃ (results : List (Option Nat)) (s2 : Store Nat),
      CachingLM.execute
          ((fun rem => Except.ok (rem.map (fun _ => (some 9 : Option Nat)))) :
            List Req → Except Unit (List (Option Nat)))
          "loglikelihood"
          [(cacheKey "loglikelihood" [PArg.str "b"], some 5)]
          [[PArg.str "a"], [PArg.str "b"], [PArg.str "c"]] =
        (Except.ok results, s2,
         [missesOf "loglikelihood" [(cacheKey "loglikelihood" [PArg.str "b"], some 5)]
           [[PArg.str "a"], [PArg.str "b"], [PArg.str "c"]]]) ∧
      results.length = [[PArg.str "a"], [PArg.str "b"], [PArg.str "c"]].length ∧
      (∀ (i : Nat) (hi : i < [[PArg.str "a"], [PArg.str "b"], [PArg.str "c"]].length)
          (v : Option Nat),
        storeGet [(cacheKey "loglikelihood" [PArg.str "b"], some 5)]
            (cacheKey "loglikelihood"
              ([[PArg.str "a"], [PArg.str "b"], [PArg.str "c"]].get ⟨i, hi⟩)) = some v →
        results.get? i = some v) ∧
      (∀ (i : Nat) (hi : i < [[PArg.str "a"], [PArg.str "b"], [PArg.str "c"]].length),
        storeGet [(cacheKey "loglikelihood" [PArg.str "b"], some 5)]
            (cacheKey "loglikelihood"
              ([[PArg.str "a"], [PArg.str "b"], [PArg.str "c"]].get ⟨i, hi⟩)) = none →
        results.get? i =
          [(some 9 : Option Nat), some 9].get?
            (missRank "loglikelihood" [(cacheKey "loglikelihood" [PArg.str "b"], some 5)]
              [[PArg.str "a"], [PArg.str "b"], [PArg.str "c"]] i)) :=
  execute_order_preserving _ "loglikelihood"
    [(cacheKey "loglikelihood" [PArg.str "b"], some 5)]
    [[PArg.str "a"], [PArg.str "b"], [PArg.str "c"]] [some 9, some 9]
    (by decide) rfl rfl (by decide)
